import Mathlib

/-!
Verification of the two-tier scheduler of MindlessGen
(`src/mindlessgen/generator/main.py`) against its specification.

The scheduler code is embedded shallowly:

* `setup_blocks` — the Block Planner (`setup_blocks`, main.py lines 423-462).
  Python's `max([...])` on an empty list raises `ValueError`; fallible steps
  are modelled with `Except PyErr`.  The `while` loop is written with an
  explicit fuel parameter; `blocksLoop_fuel_eq` shows the result does not
  depend on the fuel once it is at least the number of remaining molecules,
  so the fuel is only a well-foundedness device.
* `single_molecule_generator` / `single_molecule_step` — the Inner Scheduler
  (main.py lines 179-357).  `as_completed` yields futures in completion
  order; that order is modelled by an explicit permutation of indices
  (`asCompleted`).
* `generator` fragments — task submission over blocks, verbosity toggling and
  the final result tally (main.py lines 101-176).
* The final claim step of `single_molecule_step` (lines 351-357) is also
  given a fine-grained interleaved semantics (`claimStep`, `runClaim`) in
  which the `stop_event.is_set()` check and the `stop_event.set()` call are
  separate atomic actions, as they are for a `multiprocessing` event.
-/

/-- Errors the embedded Python code can raise.
`valueError` models `max([])`; `unboundLocalError` models referencing a
local variable that was never assigned; `outOfFuel` is an artefact of the
fuel-based embedding of the `while` loop and is proved unreachable. -/
inductive PyErr where
  | valueError
  | unboundLocalError
  | outOfFuel
deriving DecidableEq

deriving instance DecidableEq for Except

/-- A parallel block: `num_molecules` molecules, each generated by a task
occupying `ncores` cores (main.py lines 28-31). -/
structure Block where
  num_molecules : Nat
  ncores : Nat
deriving DecidableEq

/-- Python's `max` on a list of naturals: `none` on the empty list
(where Python raises `ValueError`). -/
def pyMax : List Nat → Option Nat
  | [] => none
  | x :: xs => some (xs.foldl max x)

/-- The candidate slot counts of the divisor search in `setup_blocks`
(main.py lines 445-451): `[j for j in range(minprocs, maxprocs)
if ncores % j == 0 and j <= molecules_left]`. -/
def blockCandidates (ncores minprocs maxprocs left : Nat) : List Nat :=
  (List.range' minprocs (maxprocs - minprocs)).filter
    (fun j => decide (ncores % j = 0) && decide (j ≤ left))

/-- The `while molecules_left >= minprocs` loop of `setup_blocks`
(main.py lines 444-455), with explicit fuel.  Returns the final block list
and the final `molecules_left`. -/
def blocksLoop (ncores minprocs maxprocs : Nat) :
    Nat → Nat → List Block → Except PyErr (List Block × Nat)
  | fuel, left, blocks =>
    if minprocs ≤ left then
      match fuel with
      | 0 => .error .outOfFuel
      | fuel' + 1 =>
        match pyMax (blockCandidates ncores minprocs maxprocs left) with
        | none => .error .valueError
        | some p =>
          let mpb := left / p
          blocksLoop ncores minprocs maxprocs fuel' (left - mpb * p)
            (blocks ++ List.replicate p ⟨mpb, ncores / p⟩)
    else
      .ok (blocks, left)

/-- `setup_blocks` (main.py lines 423-462) with explicit fuel for the
`while` loop.  `mincores` stands for `MINCORES_PLACEHOLDER`, a positive
constant imported from `..prog.config`; that module is not part of the
sources, so — modelled from the spec — the constant is exposed as the
`min_cores_per_slot` parameter of the Block Planner. -/
def setup_blocksFuel (ncores num_molecules mincores fuel : Nat) :
    Except PyErr (List Block) :=
  let maxcores := ncores
  let maxprocs := max 1 (ncores / mincores)
  let minprocs := max 1 (ncores / maxcores)
  let start :=
    if maxprocs ≤ num_molecules then
      (List.replicate maxprocs
        (⟨num_molecules / maxprocs, ncores / maxprocs⟩ : Block),
       num_molecules - num_molecules / maxprocs * maxprocs)
    else
      (([] : List Block), num_molecules)
  match blocksLoop ncores minprocs maxprocs fuel start.2 start.1 with
  | .error e => .error e
  | .ok (blocks, left) =>
    .ok (if 0 < left then blocks ++ [⟨left, maxcores⟩] else blocks)

/-- `setup_blocks` with the canonical fuel (the molecule count, which bounds
the number of loop iterations). -/
def setup_blocks (ncores num_molecules mincores : Nat) :
    Except PyErr (List Block) :=
  setup_blocksFuel ncores num_molecules mincores num_molecules

/-- `blocks.sort(key=lambda x: x.ncores)` in `generator` (main.py line 102):
a stable sort by ascending `ncores`. -/
def sortBlocks (blocks : List Block) : List Block :=
  blocks.mergeSort (fun a b => a.ncores ≤ b.ncores)

/-- The task-submission loop of `generator` (main.py lines 126-140): one
task per molecule slot, block by block, each task carrying the block's
`ncores`.  The returned list holds the `ncores` argument of each submitted
task, in submission order. -/
def submittedTasks (blocks : List Block) : List Nat :=
  blocks.flatMap (fun b => List.replicate b.num_molecules b.ncores)

/-- Task submission as performed by `generator`: blocks are sorted by
ascending `ncores` first (main.py lines 101-102, 126-140). -/
def generatorTasks (blocks : List Block) : List Nat :=
  submittedTasks (sortBlocks blocks)

/-- `as_completed(tasks)` yields the submitted futures in completion order.
The completion order is modelled by the index list `perm` (a permutation of
`List.range tasks.length`): `asCompleted perm tasks` is the result list in
completion order (main.py lines 143 and 234). -/
def asCompleted (perm : List Nat) (tasks : List α) : List α :=
  perm.filterMap (fun i => tasks[i]?)

/-- The result-scanning loop of `single_molecule_generator` (main.py lines
239-244): walk the completed results, and at the first non-`None` entry
record `cycles_needed = i + 1` together with the molecule, then break.
Returns `none` when every entry is `None` (then `cycles_needed` is never
assigned). -/
def scanLoop : List (Option α) → Nat → Option (α × Nat)
  | [], _ => none
  | none :: rest, i => scanLoop rest (i + 1)
  | some m :: _, i => some (m, i + 1)

/-- The tail of `single_molecule_generator` (main.py lines 239-254): scan
the completed results, then report (`print` or `msg_queue.put`) a message
interpolating `cycles_needed`, then return `optimized_molecule`.  When no
cycle succeeded, `cycles_needed` was never assigned and the report raises
`UnboundLocalError`. -/
def innerFinish (results : List (Option α)) : Except PyErr (Option α) :=
  match scanLoop results 0 with
  | some (m, _) => .ok (some m)
  | none => .error .unboundLocalError

/-- Modelled from the spec's words for claim C5: scan the attempt results
in cycle-index order (attempt 0, 1, 2, ...), returning the first
non-failure artifact with `cycles_needed` equal to its cycle index plus
one.  Compare with the source, which scans in completion order. -/
def innerScanSpecC5 (resultsByCycle : List (Option α)) : Option (α × Nat) :=
  scanLoop resultsByCycle 0

/-- Outcome of `generate_random_molecule` (main.py lines 283-301): a
molecule, a recoverable `RuntimeError`, or a debug-triggered `SystemExit`
that additionally sets the stop event. -/
inductive GenOutcome (α : Type u) where
  | ok (mol : α)
  | recoverable
  | abort

/-- `single_molecule_step` (main.py lines 257-357), sequential semantics
for one attempt: given the stop event's current value, return the stop
event's value afterwards and the attempt's result.  `refine` and `post`
model `iterative_optimization` and `postprocess_mol` (`none` = the
collaborator raised `RuntimeError`); `postprocess`, `refine_debug` and
`post_debug` are the configuration flags read by the function. -/
def single_molecule_step (postprocess refine_debug post_debug : Bool)
    (gen : GenOutcome α) (refine : α → Option α) (post : α → Option α)
    (stop : Bool) : Bool × Option α :=
  if stop then (stop, none)
  else
    match gen with
    | .abort => (true, none)
    | .recoverable => (stop, none)
    | .ok mol =>
      match refine mol with
      | none => (stop || refine_debug, none)
      | some opt =>
        let stop1 := stop || refine_debug
        if postprocess then
          match post opt with
          | none => (stop1 || post_debug, none)
          | some opt2 =>
            let stop2 := stop1 || post_debug
            if stop2 = false then (true, some opt2)
            else if refine_debug || post_debug then (stop2, some opt2)
            else (stop2, none)
        else
          if stop1 = false then (true, some opt)
          else if refine_debug || post_debug then (stop1, some opt)
          else (stop1, none)

/-- The attempt-submission loop of `single_molecule_generator` (main.py
lines 212-225) under a serialized interleaving: attempt `cycle` runs
`step cycle` with the stop event threaded through.  Returns the per-cycle
results in cycle order. -/
def runCycles (step : Nat → Bool → Bool × Option α) :
    Nat → Nat → Bool → List (Option α)
  | 0, _, _ => []
  | k + 1, cycle, stop =>
    let r := step cycle stop
    r.2 :: runCycles step k (cycle + 1) r.1

/-- `single_molecule_generator` (main.py lines 179-254), molecule-finding
core: run `max_cycles` attempts, collect their results in completion order
`perm`, and aggregate with the scan loop. -/
def single_molecule_generator (max_cycles : Nat)
    (step : Nat → Bool → Bool × Option α) (perm : List Nat) :
    Except PyErr (Option α) :=
  innerFinish (asCompleted perm (runCycles step max_cycles 0 false))

/-- The result tally of `generator` (main.py lines 153-176): a `None`
result issues a warning and sets the exit code to `1`; a molecule is
appended to `optimized_molecules`.  Returns `(optimized_molecules,
exitcode)`. -/
def generatorTally : List (Option α) → List α × Nat
  | [] => ([], 0)
  | none :: rest => ((generatorTally rest).1, 1)
  | some m :: rest =>
    let t := generatorTally rest
    (m :: t.1, t.2)

/-- The result collection of `generator` (main.py line 143):
`[task.result() for task in as_completed(tasks)]`, i.e. the per-task
results in completion order `perm`, not in submission order. -/
def generatorResults (taskResults : List (Option α)) (perm : List Nat) :
    List (Option α) :=
  asCompleted perm taskResults

/-- The configuration fields of `config.general` read by the generator
module.  `ConfigManager` lives in `..prog.config`, which is not part of the
sources; modelled from the spec: it exposes the artifact count, core
budget, max attempt cycles, verbosity level and the postprocessing switch. -/
structure GeneralConfig where
  verbosity : Nat
  num_molecules : Nat
  max_cycles : Nat
  parallel : Nat
  postprocess : Bool
  write_xyz : Bool
deriving DecidableEq

/-- Verbosity handling of `generator` before the parallel phase (main.py
lines 104-107): when more than one block was planned and verbosity is
positive, back up the verbosity level and set it to `0`.  Returns the
backup and the configuration as the parallel tasks observe it. -/
def generatorVerbosityPhase (cfg : GeneralConfig) (nblocks : Nat) :
    Option Nat × GeneralConfig :=
  if 1 < nblocks ∧ 0 < cfg.verbosity then
    (some cfg.verbosity,
     ⟨0, cfg.num_molecules, cfg.max_cycles, cfg.parallel, cfg.postprocess,
      cfg.write_xyz⟩)
  else
    (none, cfg)

/-- Verbosity restoration of `generator` after the parallel phase (main.py
lines 149-151): if a backup was taken, write it back. -/
def generatorVerbosityRestore (backup : Option Nat) (cfg : GeneralConfig) :
    GeneralConfig :=
  match backup with
  | some v =>
    ⟨v, cfg.num_molecules, cfg.max_cycles, cfg.parallel, cfg.postprocess,
     cfg.write_xyz⟩
  | none => cfg

/-!  Fine-grained semantics of the final claim step of
`single_molecule_step` (main.py lines 351-357).  The read
`stop_event.is_set()` and the write `stop_event.set()` are separate atomic
actions on the shared event, so concurrent attempts may interleave between
them. -/

/-- The phase of one attempt that has produced molecule `mol` and reached
the final claim step: not yet checked the stop event, checked it (recording
the value it saw), or finished with its result. -/
inductive AttemptPhase (α : Type u) where
  | start (mol : α)
  | checked (mol : α) (saw : Bool)
  | finished (res : Option α)
deriving DecidableEq

/-- One atomic action of the claim step (main.py lines 351-357): first read
the stop event into `saw`; then, if it was unset, set it and return the
molecule; otherwise return the molecule only when a debug flag is active,
else `None`. -/
def claimStep (refine_debug post_debug : Bool) (flag : Bool) :
    AttemptPhase α → Bool × AttemptPhase α
  | .start mol => (flag, .checked mol flag)
  | .checked mol saw =>
    if saw = false then (true, .finished (some mol))
    else if refine_debug || post_debug then (flag, .finished (some mol))
    else (flag, .finished none)
  | .finished r => (flag, .finished r)

/-- Run a schedule of atomic actions: each entry of `sched` names the
attempt that performs its next action (out-of-range entries and entries
naming a finished attempt do nothing). -/
def runClaim (refine_debug post_debug : Bool) :
    List Nat → Bool → List (AttemptPhase α) → Bool × List (AttemptPhase α)
  | [], flag, atts => (flag, atts)
  | i :: rest, flag, atts =>
    match atts[i]? with
    | none => runClaim refine_debug post_debug rest flag atts
    | some ph =>
      let r := claimStep refine_debug post_debug flag ph
      runClaim refine_debug post_debug rest r.1 (atts.set i r.2)

/-- A schedule in which each attempt's check and set-return actions are
adjacent (the check-and-set executes atomically). -/
def atomicSched (order : List Nat) : List Nat :=
  order.foldr (fun i acc => i :: i :: acc) []

/-- Whether an attempt finished `DONE`, i.e. returned a molecule. -/
def isDone : AttemptPhase α → Bool
  | .finished (some _) => true
  | _ => false

/-- How many attempts finished `DONE`. -/
def doneCount (atts : List (AttemptPhase α)) : Nat :=
  atts.countP isDone

/-! ### Lemmas about `pyMax` and the divisor search -/

theorem foldl_max_mem (xs : List Nat) (x : Nat) : xs.foldl max x ∈ x :: xs := by
  induction xs generalizing x with
  | nil => simp
  | cons y ys ih =>
    have h := ih (max x y)
    simp only [List.foldl_cons]
    rcases List.mem_cons.mp h with h1 | h1
    · rcases max_choice x y with hm | hm
      · rw [h1, hm]; exact List.mem_cons_self _ _
      · rw [h1, hm]; exact List.mem_cons_of_mem _ (List.mem_cons_self _ _)
    · exact List.mem_cons_of_mem _ (List.mem_cons_of_mem _ h1)

theorem pyMax_mem {l : List Nat} {p : Nat} (h : pyMax l = some p) : p ∈ l := by
  cases l with
  | nil => simp [pyMax] at h
  | cons x xs =>
    simp only [pyMax, Option.some.injEq] at h
    exact h ▸ foldl_max_mem xs x

theorem pyMax_of_ne_nil {l : List Nat} (h : l ≠ []) : ∃ p, pyMax l = some p := by
  cases l with
  | nil => exact absurd rfl h
  | cons x xs => exact ⟨_, rfl⟩

theorem mem_blockCandidates {ncores minprocs maxprocs left j : Nat} :
    j ∈ blockCandidates ncores minprocs maxprocs left ↔
      (minprocs ≤ j ∧ j < maxprocs) ∧ ncores % j = 0 ∧ j ≤ left := by
  unfold blockCandidates
  rw [List.mem_filter, List.mem_range'_1]
  constructor
  · rintro ⟨⟨h1, h2⟩, h3⟩
    simp only [Bool.and_eq_true, decide_eq_true_eq] at h3
    exact ⟨⟨h1, by omega⟩, h3⟩
  · rintro ⟨⟨h1, h2⟩, h3, h4⟩
    exact ⟨⟨h1, by omega⟩, by simp [h3, h4]⟩

theorem one_mem_blockCandidates {ncores maxprocs left : Nat}
    (hleft : 1 ≤ left) (hmax : 2 ≤ maxprocs) :
    1 ∈ blockCandidates ncores 1 maxprocs left :=
  mem_blockCandidates.mpr ⟨⟨le_refl 1, by omega⟩, Nat.mod_one ncores, hleft⟩

/-! ### The while-loop invariant of `setup_blocks` -/

/-- The result of `blocksLoop` does not depend on the fuel, as long as the
fuel is at least `molecules_left`: the loop terminates on its own. -/
theorem blocksLoop_fuel_eq (ncores maxprocs : Nat) :
    ∀ left fuel₁ fuel₂ blocks, left ≤ fuel₁ → left ≤ fuel₂ →
      blocksLoop ncores 1 maxprocs fuel₁ left blocks =
        blocksLoop ncores 1 maxprocs fuel₂ left blocks := by
  intro left
  induction left using Nat.strong_induction_on with
  | _ left ih =>
    intro fuel₁ fuel₂ blocks h1 h2
    by_cases hcond : 1 ≤ left
    · obtain ⟨f1, rfl⟩ : ∃ f, fuel₁ = f + 1 := ⟨fuel₁ - 1, by omega⟩
      obtain ⟨f2, rfl⟩ : ∃ f, fuel₂ = f + 1 := ⟨fuel₂ - 1, by omega⟩
      rw [blocksLoop, blocksLoop]
      simp only [if_pos hcond]
      cases hp : pyMax (blockCandidates ncores 1 maxprocs left) with
      | none => rfl
      | some p =>
        obtain ⟨⟨hp1, _⟩, _, hple⟩ := mem_blockCandidates.mp (pyMax_mem hp)
        have hq : 1 ≤ left / p := (Nat.one_le_div_iff (by omega)).mpr hple
        have hpge : 1 * p ≤ left / p * p := Nat.mul_le_mul_right p hq
        have hlt : left - left / p * p < left := by omega
        exact ih _ hlt _ _ _ (by omega) (by omega)
    · rw [blocksLoop.eq_def, blocksLoop.eq_def]
      simp [hcond]

/-- The main invariant of the `while` loop of `setup_blocks`: given enough
fuel it succeeds, consumes every remaining molecule, and every block it
appends arises from a divisor `p` of `ncores` with `p` at most the
remaining molecule count and below `maxprocs`; the appended blocks are
sorted by ascending `ncores`, and for every per-slot core count `c` the
number of appended blocks carrying `c`, times `c`, is at most `ncores`. -/
theorem blocksLoop_spec (ncores maxprocs : Nat) (hnc : 1 ≤ ncores) :
    ∀ fuel left blocks, left ≤ fuel → (left = 0 ∨ 2 ≤ maxprocs) →
      ∃ extra,
        blocksLoop ncores 1 maxprocs fuel left blocks =
          .ok (blocks ++ extra, 0) ∧
        (extra.map Block.num_molecules).sum = left ∧
        (∀ b ∈ extra, ∃ p, 1 ≤ p ∧ p ≤ left ∧ p + 1 ≤ maxprocs ∧
          ncores % p = 0 ∧ 1 ≤ b.num_molecules ∧ b.ncores = ncores / p) ∧
        List.Pairwise (fun a b => a.ncores ≤ b.ncores) extra ∧
        (∀ c, (extra.map Block.ncores).count c * c ≤ ncores) := by
  intro fuel
  induction fuel with
  | zero =>
    intro left blocks hfuel _
    have hl : left = 0 := by omega
    subst hl
    refine ⟨[], ?_, by simp, by simp, by simp, by simp⟩
    rw [blocksLoop]
    simp
  | succ f ih =>
    intro left blocks hfuel hside
    by_cases hl : 1 ≤ left
    · have hmax : 2 ≤ maxprocs := by omega
      have hne : blockCandidates ncores 1 maxprocs left ≠ [] := by
        intro h
        have h1 := @one_mem_blockCandidates ncores maxprocs left hl hmax
        rw [h] at h1
        exact absurd h1 (List.not_mem_nil 1)
      obtain ⟨p, hp⟩ := pyMax_of_ne_nil hne
      obtain ⟨⟨hp1, hpmax⟩, hpmod, hple⟩ := mem_blockCandidates.mp (pyMax_mem hp)
      have hpdvd : p ∣ ncores := Nat.dvd_of_mod_eq_zero hpmod
      have hq : 1 ≤ left / p := (Nat.one_le_div_iff (by omega)).mpr hple
      have hmul := Nat.div_add_mod left p
      have hmod_lt : left % p < p := Nat.mod_lt left (by omega)
      have hleft2 : left - left / p * p = left % p := by
        rw [Nat.mul_comm (left / p) p]; omega
      have hrec := ih (left - left / p * p)
        (blocks ++ List.replicate p ⟨left / p, ncores / p⟩)
        (by rw [hleft2]; omega) (by right; exact hmax)
      obtain ⟨extra, hrun, hsum, hblocks, hpair, hcount⟩ := hrec
      refine ⟨List.replicate p ⟨left / p, ncores / p⟩ ++ extra, ?_, ?_, ?_, ?_, ?_⟩
      · rw [blocksLoop]
        simp only [if_pos hl, hp]
        rw [hrun, List.append_assoc]
      · rw [List.map_append, List.sum_append, List.map_replicate,
          List.sum_replicate, smul_eq_mul]
        have hproj : (⟨left / p, ncores / p⟩ : Block).num_molecules = left / p := rfl
        rw [hproj]
        rw [hleft2] at hsum
        omega
      · intro b hb
        rcases List.mem_append.mp hb with hb | hb
        · obtain ⟨-, rfl⟩ := List.mem_replicate.mp hb
          exact ⟨p, hp1, hple, by omega, hpmod, hq, rfl⟩
        · obtain ⟨p', h1, h2, h3, h4, h5, h6⟩ := hblocks b hb
          exact ⟨p', h1, by omega, h3, h4, h5, h6⟩
      · rw [List.pairwise_append]
        refine ⟨List.pairwise_replicate.mpr (Or.inr (le_refl _)), hpair, ?_⟩
        intro a ha b hb
        obtain ⟨-, rfl⟩ := List.mem_replicate.mp ha
        obtain ⟨p', hp'1, hp'le, -, -, -, hb6⟩ := hblocks b hb
        have hp'p : p' ≤ p := by omega
        rw [hb6]
        exact Nat.div_le_div_left hp'p (by omega)
      · intro c
        rw [List.map_append, List.count_append, List.map_replicate,
          List.count_replicate]
        by_cases hc : c = ncores / p
        · have hnot : ¬ (ncores / p) ∈ extra.map Block.ncores := by
            intro hmem
            obtain ⟨b, hb, hbnc⟩ := List.mem_map.mp hmem
            obtain ⟨p', hp'1, hp'le, -, hp'mod, -, hb6⟩ := hblocks b hb
            have hp'dvd : p' ∣ ncores := Nat.dvd_of_mod_eq_zero hp'mod
            have hde : ncores / p' = ncores / p := by rw [hb6] at hbnc; exact hbnc
            have hd : ncores / p * p' = ncores := by
              rw [← hde]; exact Nat.div_mul_cancel hp'dvd
            have hdp : ncores / p * p ≤ ncores := Nat.div_mul_le_self _ _
            have hd1 : 1 ≤ ncores / p := by
              rw [← hde]
              exact (Nat.one_le_div_iff (by omega)).mpr (Nat.le_of_dvd (by omega) hp'dvd)
            have hp'p : p' < p := by omega
            have hlt : ncores / p * p' < ncores / p * p :=
              (Nat.mul_lt_mul_left (by omega)).mpr hp'p
            omega
          have hz : (extra.map Block.ncores).count (ncores / p) = 0 :=
            List.count_eq_zero.mpr hnot
          subst hc
          rw [hz]
          simp only [beq_self_eq_true, if_true]
          have hcancel : ncores / p * p = ncores := Nat.div_mul_cancel hpdvd
          have hcomm : (p + 0) * (ncores / p) = ncores / p * p := by ring
          omega
        · have hbeq : ((ncores / p : Nat) == c) = false :=
            beq_eq_false_iff_ne.mpr (Ne.symm hc)
          rw [hbeq]
          simp only [Bool.false_eq_true, if_false]
          have h0 := hcount c
          have hc0 : (0 + (extra.map Block.ncores).count c) * c
              = (extra.map Block.ncores).count c * c := by ring
          omega
    · have hl0 : left = 0 := by omega
      subst hl0
      refine ⟨[], ?_, by simp, by simp, by simp, by simp⟩
      rw [blocksLoop]
      simp

/-- Full specification of `setup_blocksFuel`: with fuel at least the
molecule count it succeeds; its blocks' molecule counts sum to the
requested count; every block is non-degenerate, stays within the core
budget, and respects the per-slot core floor whenever that floor is
satisfiable; the blocks come out sorted by ascending `ncores`; and for
every per-slot core count `c`, the number of blocks carrying `c`, times
`c`, is at most `ncores`. -/
theorem setup_blocksFuel_spec (ncores num_molecules mincores fuel : Nat)
    (hnc : 1 ≤ ncores) (hmc : 1 ≤ mincores) (hfuel : num_molecules ≤ fuel) :
    ∃ bs,
      setup_blocksFuel ncores num_molecules mincores fuel = .ok bs ∧
      (bs.map Block.num_molecules).sum = num_molecules ∧
      (∀ b ∈ bs, 1 ≤ b.num_molecules ∧ 1 ≤ b.ncores ∧ b.ncores ≤ ncores ∧
        (mincores ≤ ncores → mincores ≤ b.ncores)) ∧
      List.Pairwise (fun a b => a.ncores ≤ b.ncores) bs ∧
      (∀ c, (bs.map Block.ncores).count c * c ≤ ncores) := by
  have hself : ncores / ncores = 1 := Nat.div_self (by omega)
  have hmax1 : 1 ≤ max 1 (ncores / mincores) := le_max_left _ _
  have hmaxle : max 1 (ncores / mincores) ≤ ncores :=
    max_le hnc (Nat.div_le_self _ _)
  have hfloor : mincores ≤ ncores →
      mincores ≤ ncores / max 1 (ncores / mincores) := by
    intro hle
    have h1 : 1 ≤ ncores / mincores := (Nat.one_le_div_iff (by omega)).mpr hle
    rw [max_eq_right h1, Nat.le_div_iff_mul_le (by omega)]
    calc mincores * (ncores / mincores)
        = ncores / mincores * mincores := by ring
      _ ≤ ncores := Nat.div_mul_le_self _ _
  simp only [setup_blocksFuel, hself, max_self]
  by_cases hcase : max 1 (ncores / mincores) ≤ num_molecules
  · rw [if_pos hcase]
    have hmod := Nat.div_add_mod num_molecules (max 1 (ncores / mincores))
    have hpge : 1 * max 1 (ncores / mincores) ≤
        num_molecules / max 1 (ncores / mincores) * max 1 (ncores / mincores) :=
      Nat.mul_le_mul_right _ ((Nat.one_le_div_iff (by omega)).mpr hcase)
    have hleft0 : num_molecules -
        num_molecules / max 1 (ncores / mincores) * max 1 (ncores / mincores) =
        num_molecules % max 1 (ncores / mincores) := by
      have hcm : num_molecules / max 1 (ncores / mincores) * max 1 (ncores / mincores)
          = max 1 (ncores / mincores) * (num_molecules / max 1 (ncores / mincores)) := by
        ring
      omega
    have hmodlt : num_molecules % max 1 (ncores / mincores) <
        max 1 (ncores / mincores) := Nat.mod_lt _ (by omega)
    have hside : num_molecules -
        num_molecules / max 1 (ncores / mincores) * max 1 (ncores / mincores) = 0 ∨
        2 ≤ max 1 (ncores / mincores) := by
      rcases Nat.lt_or_ge (max 1 (ncores / mincores)) 2 with h2 | h2
      · left
        have hone : max 1 (ncores / mincores) = 1 := by omega
        rw [hleft0, hone, Nat.mod_one]
      · right; exact h2
    obtain ⟨extra, hrun, hsum, hblocks, hpair, hcount⟩ :=
      blocksLoop_spec ncores (max 1 (ncores / mincores)) hnc fuel
        (num_molecules -
          num_molecules / max 1 (ncores / mincores) * max 1 (ncores / mincores))
        (List.replicate (max 1 (ncores / mincores))
          ⟨num_molecules / max 1 (ncores / mincores),
           ncores / max 1 (ncores / mincores)⟩)
        (by omega) hside
    refine ⟨List.replicate (max 1 (ncores / mincores))
        ⟨num_molecules / max 1 (ncores / mincores),
         ncores / max 1 (ncores / mincores)⟩ ++ extra, ?_, ?_, ?_, ?_, ?_⟩
    · rw [hrun]
      simp
    · rw [List.map_append, List.sum_append, List.map_replicate,
        List.sum_replicate, smul_eq_mul]
      have hproj : (⟨num_molecules / max 1 (ncores / mincores),
          ncores / max 1 (ncores / mincores)⟩ : Block).num_molecules
          = num_molecules / max 1 (ncores / mincores) := rfl
      rw [hproj]
      rw [hleft0] at hsum
      omega
    · intro b hb
      rcases List.mem_append.mp hb with hb | hb
      · obtain ⟨-, rfl⟩ := List.mem_replicate.mp hb
        refine ⟨(Nat.one_le_div_iff (by omega)).mpr hcase,
          (Nat.one_le_div_iff (by omega)).mpr hmaxle,
          Nat.div_le_self _ _, hfloor⟩
      · obtain ⟨p, hp1, hple, hpmax, hpmod, hnum1, hb6⟩ := hblocks b hb
        have hpnc : p ≤ ncores := by omega
        refine ⟨hnum1, ?_, ?_, ?_⟩
        · rw [hb6]; exact (Nat.one_le_div_iff (by omega)).mpr hpnc
        · rw [hb6]; exact Nat.div_le_self _ _
        · intro hle
          rw [hb6]
          exact le_trans (hfloor hle) (Nat.div_le_div_left (by omega) (by omega))
    · rw [List.pairwise_append]
      refine ⟨List.pairwise_replicate.mpr (Or.inr (le_refl _)), hpair, ?_⟩
      intro a ha b hb
      obtain ⟨-, rfl⟩ := List.mem_replicate.mp ha
      obtain ⟨p, hp1, -, hpmax, -, -, hb6⟩ := hblocks b hb
      rw [hb6]
      exact Nat.div_le_div_left (by omega) (by omega)
    · intro c
      rw [List.map_append, List.count_append, List.map_replicate,
        List.count_replicate]
      have hproj : (⟨num_molecules / max 1 (ncores / mincores),
          ncores / max 1 (ncores / mincores)⟩ : Block).ncores
          = ncores / max 1 (ncores / mincores) := rfl
      rw [hproj]
      by_cases hc : c = ncores / max 1 (ncores / mincores)
      · have hnot : ¬ (ncores / max 1 (ncores / mincores)) ∈
            extra.map Block.ncores := by
          intro hmem
          obtain ⟨b, hb, hbnc⟩ := List.mem_map.mp hmem
          obtain ⟨p, hp1, -, hpmax, hpmod, -, hb6⟩ := hblocks b hb
          have hpdvd : p ∣ ncores := Nat.dvd_of_mod_eq_zero hpmod
          have hde : ncores / p = ncores / max 1 (ncores / mincores) := by
            rw [hb6] at hbnc; exact hbnc
          have hd : ncores / max 1 (ncores / mincores) * p = ncores := by
            rw [← hde]; exact Nat.div_mul_cancel hpdvd
          have hdp : ncores / max 1 (ncores / mincores) * max 1 (ncores / mincores)
              ≤ ncores := Nat.div_mul_le_self _ _
          have hd1 : 1 ≤ ncores / max 1 (ncores / mincores) := by
            rw [← hde]
            exact (Nat.one_le_div_iff (by omega)).mpr (Nat.le_of_dvd (by omega) hpdvd)
          have hlt : ncores / max 1 (ncores / mincores) * p <
              ncores / max 1 (ncores / mincores) * max 1 (ncores / mincores) :=
            (Nat.mul_lt_mul_left (by omega)).mpr (by omega)
          omega
        have hz : (extra.map Block.ncores).count
            (ncores / max 1 (ncores / mincores)) = 0 :=
          List.count_eq_zero.mpr hnot
        subst hc
        rw [hz]
        simp only [beq_self_eq_true, if_true]
        have hdp : ncores / max 1 (ncores / mincores) * max 1 (ncores / mincores)
            ≤ ncores := Nat.div_mul_le_self _ _
        have hcomm : (max 1 (ncores / mincores) + 0) *
            (ncores / max 1 (ncores / mincores)) =
            ncores / max 1 (ncores / mincores) * max 1 (ncores / mincores) := by
          ring
        omega
      · have hbeq : ((ncores / max 1 (ncores / mincores) : Nat) == c) = false :=
          beq_eq_false_iff_ne.mpr (Ne.symm hc)
        rw [hbeq]
        simp only [Bool.false_eq_true, if_false]
        have h0 := hcount c
        have hc0 : (0 + (extra.map Block.ncores).count c) * c
            = (extra.map Block.ncores).count c * c := by ring
        omega
  · rw [if_neg hcase]
    have hside : num_molecules = 0 ∨ 2 ≤ max 1 (ncores / mincores) := by
      rcases Nat.lt_or_ge (max 1 (ncores / mincores)) 2 with h2 | h2
      · left; omega
      · right; exact h2
    obtain ⟨extra, hrun, hsum, hblocks, hpair, hcount⟩ :=
      blocksLoop_spec ncores (max 1 (ncores / mincores)) hnc fuel
        num_molecules [] hfuel hside
    refine ⟨extra, ?_, hsum, ?_, hpair, hcount⟩
    · rw [hrun]
      simp
    · intro b hb
      obtain ⟨p, hp1, hple, hpmax, hpmod, hnum1, hb6⟩ := hblocks b hb
      have hpnc : p ≤ ncores := by omega
      refine ⟨hnum1, ?_, ?_, ?_⟩
      · rw [hb6]; exact (Nat.one_le_div_iff (by omega)).mpr hpnc
      · rw [hb6]; exact Nat.div_le_self _ _
      · intro hle
        rw [hb6]
        exact le_trans (hfloor hle) (Nat.div_le_div_left (by omega) (by omega))

/-- `setup_blocksFuel` computes `setup_blocks` for every fuel at least the
molecule count: the fuel is irrelevant beyond that bound. -/
theorem setup_blocksFuel_eq_setup_blocks (ncores num_molecules mincores fuel : Nat)
    (hnc : 1 ≤ ncores) (hfuel : num_molecules ≤ fuel) :
    setup_blocksFuel ncores num_molecules mincores fuel =
      setup_blocks ncores num_molecules mincores := by
  unfold setup_blocks
  have hself : ncores / ncores = 1 := Nat.div_self (by omega)
  simp only [setup_blocksFuel, hself, max_self]
  by_cases hcase : max 1 (ncores / mincores) ≤ num_molecules
  · rw [if_pos hcase]
    have hle : num_molecules -
        num_molecules / max 1 (ncores / mincores) * max 1 (ncores / mincores) ≤
        num_molecules := Nat.sub_le _ _
    rw [blocksLoop_fuel_eq ncores (max 1 (ncores / mincores)) _ fuel num_molecules _
      (by omega) hle]
  · rw [if_neg hcase]
    rw [blocksLoop_fuel_eq ncores (max 1 (ncores / mincores)) _ fuel num_molecules _
      hfuel (le_refl _)]

/-! ### Task submission -/

theorem length_submittedTasks (blocks : List Block) :
    (submittedTasks blocks).length = (blocks.map Block.num_molecules).sum := by
  unfold submittedTasks
  rw [List.length_flatMap]
  congr 1
  simp [Function.comp]

theorem generatorTasks_length (blocks : List Block) :
    (generatorTasks blocks).length = (blocks.map Block.num_molecules).sum := by
  unfold generatorTasks sortBlocks
  rw [length_submittedTasks]
  exact ((List.mergeSort_perm blocks
    (fun a b => a.ncores ≤ b.ncores)).map Block.num_molecules).sum_eq

/-! ### Completion order -/

theorem filterMap_getElem_range (l : List α) :
    (List.range l.length).filterMap (fun i => l[i]?) = l := by
  induction l with
  | nil => simp
  | cons a t ih =>
    rw [List.length_cons, List.range_succ_eq_map, List.filterMap_cons]
    simp only [List.getElem?_cons_zero]
    rw [List.filterMap_map]
    have heq : ((fun i => (a :: t)[i]?) ∘ Nat.succ) = (fun i => t[i]?) := by
      funext i
      simp
    rw [heq, ih]

/-- Collecting results with `as_completed` yields a permutation of the
submitted tasks' results. -/
theorem asCompleted_perm (tasks : List α) (perm : List Nat)
    (h : perm.Perm (List.range tasks.length)) :
    (asCompleted perm tasks).Perm tasks := by
  unfold asCompleted
  have h2 := h.filterMap (fun i => tasks[i]?)
  rw [filterMap_getElem_range] at h2
  exact h2

/-! ### The result-scanning loop -/

theorem scanLoop_eq_none_iff (l : List (Option α)) :
    ∀ i, scanLoop l i = none ↔ ∀ r ∈ l, r = none := by
  induction l with
  | nil => intro i; simp [scanLoop]
  | cons a t ih =>
    intro i
    cases a with
    | none => simp [scanLoop, ih (i + 1)]
    | some m => simp [scanLoop]

theorem scanLoop_eq_some_iff (l : List (Option α)) :
    ∀ i m k, scanLoop l i = some (m, k) ↔
      ∃ j, j < l.length ∧ k = i + j + 1 ∧ l[j]? = some (some m) ∧
        ∀ j', j' < j → l[j']? = some none := by
  induction l with
  | nil => intro i m k; simp [scanLoop]
  | cons a t ih =>
    intro i m k
    cases a with
    | none =>
      have hstep : scanLoop (none :: t) i = scanLoop t (i + 1) := rfl
      rw [hstep, ih (i + 1) m k]
      constructor
      · rintro ⟨j, hj, hk, hget, hprev⟩
        refine ⟨j + 1, by simpa using hj, by omega, by simpa using hget, ?_⟩
        intro j' hj'
        cases j' with
        | zero => simp
        | succ j'' =>
          rw [List.getElem?_cons_succ]
          exact hprev j'' (by omega)
      · rintro ⟨j, hj, hk, hget, hprev⟩
        cases j with
        | zero => simp at hget
        | succ j'' =>
          rw [List.getElem?_cons_succ] at hget
          refine ⟨j'', by simpa using hj, by omega, hget, ?_⟩
          intro j' hj'
          have := hprev (j' + 1) (by omega)
          rwa [List.getElem?_cons_succ] at this
    | some a' =>
      have hstep : scanLoop (some a' :: t) i = some (a', i + 1) := rfl
      rw [hstep]
      constructor
      · intro h
        have h1 : a' = m ∧ i + 1 = k := by
          constructor <;> [exact congrArg (·.1) (Option.some.inj h);
            exact congrArg (·.2) (Option.some.inj h)]
        refine ⟨0, by simp, by omega, by simp [h1.1], by omega⟩
      · rintro ⟨j, hj, hk, hget, hprev⟩
        cases j with
        | zero =>
          simp only [List.getElem?_cons_zero, Option.some.injEq] at hget
          rw [hget]
          have : k = i + 1 := by omega
          rw [this]
        | succ j'' =>
          have := hprev 0 (by omega)
          simp at this

/-! ### The final claim step under interleaving -/

/-- Whether an attempt is midway through the claim step (checked the stop
event but not yet acted on the value it saw). -/
def isChecked : AttemptPhase α → Bool
  | .checked _ _ => true
  | _ => false

/-- When every attempt's check-and-set runs atomically (its two actions are
adjacent in the schedule), at most one attempt finishes `DONE`: the flag is
monotone, the first successful claim sets it, and every later atomic
check-and-set observes it set. -/
theorem runClaim_atomic_le_one (order : List Nat) :
    ∀ (flag : Bool) (atts : List (AttemptPhase α)),
      (∀ ph ∈ atts, isChecked ph = false) →
      doneCount atts ≤ 1 →
      (1 ≤ doneCount atts → flag = true) →
      doneCount (runClaim false false (atomicSched order) flag atts).2 ≤ 1 := by
  induction order with
  | nil =>
    intro flag atts _ h2 _
    exact h2
  | cons i order' ih =>
    intro flag atts h1 h2 h3
    have hsched : atomicSched (i :: order') = i :: i :: atomicSched order' := rfl
    rw [hsched]
    cases hival : atts[i]? with
    | none =>
      simp only [runClaim, hival]
      exact ih flag atts h1 h2 h3
    | some ph =>
      obtain ⟨hlen, hgeti⟩ := List.getElem?_eq_some.mp hival
      have hmem : ph ∈ atts := hgeti ▸ List.getElem_mem hlen
      have hdonei : (if isDone atts[i] then 1 else 0) ≤ doneCount atts := by
        by_cases hd : isDone atts[i] = true
        · simp only [hd, if_true]
          exact List.countP_pos_iff.mpr ⟨atts[i], List.getElem_mem hlen, hd⟩
        · simp [hd]
      cases ph with
      | start mol =>
        have hdstart : isDone atts[i] = false := by
          rw [hgeti]; rfl
        cases hflag : flag with
        | false =>
          have hcnt0 : doneCount atts = 0 := by
            rcases Nat.eq_zero_or_pos (doneCount atts) with h0 | h0
            · exact h0
            · rw [h3 h0] at hflag; exact Bool.noConfusion hflag
          simp only [runClaim, hival, claimStep]
          rw [List.getElem?_set_self hlen]
          simp only [claimStep, if_pos rfl]
          rw [List.set_set]
          apply ih
          · intro ph' hph'
            rcases List.mem_or_eq_of_mem_set hph' with h | h
            · exact h1 ph' h
            · rw [h]; rfl
          · unfold doneCount
            rw [List.countP_set _ _ _ _ hlen, hdstart]
            unfold doneCount at hcnt0
            simp [hcnt0, isDone]
          · intro _
            rfl
        | true =>
          simp only [runClaim, hival, claimStep]
          rw [List.getElem?_set_self hlen]
          simp only [claimStep]
          rw [List.set_set]
          apply ih
          · intro ph' hph'
            rcases List.mem_or_eq_of_mem_set hph' with h | h
            · exact h1 ph' h
            · rw [h]; rfl
          · unfold doneCount
            rw [List.countP_set _ _ _ _ hlen, hdstart]
            unfold doneCount at h2
            simpa [isDone] using h2
          · intro hpos
            rfl
      | checked mol saw =>
        have := h1 _ hmem
        simp [isChecked] at this
      | finished r =>
        have hdfin : (if isDone atts[i] then 1 else 0) =
            (if isDone (AttemptPhase.finished r) then 1 else 0) := by
          rw [hgeti]
        simp only [runClaim, hival, claimStep]
        rw [List.getElem?_set_self hlen]
        simp only [claimStep]
        rw [List.set_set]
        have hcnt : doneCount (atts.set i (AttemptPhase.finished r)) =
            doneCount atts := by
          unfold doneCount
          rw [List.countP_set _ _ _ _ hlen]
          unfold doneCount at hdonei
          omega
        apply ih
        · intro ph' hph'
          rcases List.mem_or_eq_of_mem_set hph' with h | h
          · exact h1 ph' h
          · rw [h]; rfl
        · rw [hcnt]; exact h2
        · rw [hcnt]; exact h3

/-! ## The claims -/

/-- Claim C1 (code bug): for one artifact with `max_cycles = 5` and a
generation collaborator failing recoverably on every invocation, the claim
expects the Inner Scheduler to return `None` after 5 attempts; the code
instead reaches its final report with the local `cycles_needed` never
assigned and raises `UnboundLocalError` (main.py lines 246-252), so the
Outer Scheduler's `None`-handling path (warning and exit code 1, lines
153-161) is never reached.  The second conjunct shows that that path would
indeed report one failed molecule with exit code 1 if `None` arrived there,
as the claim describes. -/
theorem c1_all_cycles_fail_raises :
    single_molecule_generator 5
      (fun _ stop => single_molecule_step false false false
        (GenOutcome.recoverable : GenOutcome Nat) some some stop)
      (List.range 5) = .error .unboundLocalError ∧
    generatorTally ([none] : List (Option Nat)) = ([], 1) :=
  ⟨rfl, rfl⟩

/-- Claim C2: for every `total_cores ≥ 1` and `artifact_count ≥ 0` (and
every positive per-slot core floor), the blocks emitted by `setup_blocks`
have molecule counts summing exactly to `artifact_count`, and `generator`
submits exactly `artifact_count` tasks — one per molecule slot across all
(sorted) blocks. -/
theorem c2_sum_and_task_count (ncores num_molecules mincores : Nat)
    (hnc : 1 ≤ ncores) (hmc : 1 ≤ mincores) :
    ∃ bs, setup_blocks ncores num_molecules mincores = .ok bs ∧
      (bs.map Block.num_molecules).sum = num_molecules ∧
      (generatorTasks bs).length = num_molecules := by
  obtain ⟨bs, hok, hsum, -, -, -⟩ :=
    setup_blocksFuel_spec ncores num_molecules mincores num_molecules hnc hmc
      (le_refl _)
  exact ⟨bs, hok, hsum, by rw [generatorTasks_length, hsum]⟩

/-- Witness for C2 at the spec's scenario `total_cores = 8`,
`artifact_count = 3`, `min_cores_per_slot = 4`. -/
theorem c2_witness :
    ∃ bs, setup_blocks 8 3 4 = .ok bs ∧
      (bs.map Block.num_molecules).sum = 3 ∧
      (generatorTasks bs).length = 3 :=
  c2_sum_and_task_count 8 3 4 (by decide) (by decide)

/-- Claim C3 counterexample: with `total_cores = 1` and `artifact_count = 2`
the planner returns the single block `{num_molecules := 2, ncores := 1}`,
for which `cores_per_slot * slot_count = 2 > 1 = total_cores`.  (The value
`4` is used for the `mincores` constant; the block is the same for every
positive value.) -/
theorem c3_counterexample :
    setup_blocks 1 2 4 = .ok [⟨2, 1⟩] ∧
    ¬ ((Block.mk 2 1).ncores * (Block.mk 2 1).num_molecules ≤ 1) := by
  decide

/-- Claim C3 (amended): every block emitted by `setup_blocks` satisfies
`cores_per_slot ≤ total_cores`, and `cores_per_slot` times the number of
blocks in the plan sharing that `cores_per_slot` (the block's concurrency
group, scheduled simultaneously) is at most `total_cores`.  The per-block
product `cores_per_slot * num_molecules` of the original claim can exceed
the budget, because a block's molecules occupy its slot one after the
other rather than concurrently. -/
theorem c3_amended (ncores num_molecules mincores : Nat)
    (hnc : 1 ≤ ncores) (hmc : 1 ≤ mincores) :
    ∃ bs, setup_blocks ncores num_molecules mincores = .ok bs ∧
      ∀ b ∈ bs, b.ncores ≤ ncores ∧
        b.ncores * (bs.map Block.ncores).count b.ncores ≤ ncores := by
  obtain ⟨bs, hok, -, hblocks, -, hcount⟩ :=
    setup_blocksFuel_spec ncores num_molecules mincores num_molecules hnc hmc
      (le_refl _)
  refine ⟨bs, hok, fun b hb => ⟨(hblocks b hb).2.2.1, ?_⟩⟩
  rw [Nat.mul_comm]
  exact hcount b.ncores

/-- Witness for C3 (amended) at `total_cores = 8`, `artifact_count = 3`,
`min_cores_per_slot = 4`. -/
theorem c3_amended_witness :
    ∃ bs, setup_blocks 8 3 4 = .ok bs ∧
      ∀ b ∈ bs, b.ncores ≤ 8 ∧
        b.ncores * (bs.map Block.ncores).count b.ncores ≤ 8 :=
  c3_amended 8 3 4 (by decide) (by decide)

/-- Claim C4 counterexample: two submitted tasks with submission-order
results `[some 0, none]`; under the completion order `[1, 0]` (a
permutation of the task indices, second conjunct) `generator` collects
`[none, some 0]`, which is not index-aligned with submission order. -/
theorem c4_counterexample :
    generatorResults [some (0 : Nat), none] [1, 0] ≠ [some 0, none] ∧
    List.Perm [1, 0] (List.range 2) := by
  decide

/-- Claim C4 (amended): `generator` collects the per-artifact results in
completion order (`as_completed`), so for every completion order the
collected list is a permutation of the submission-order results, but it
need not be index-aligned with submission order. -/
theorem c4_amended (taskResults : List (Option α)) (perm : List Nat)
    (h : perm.Perm (List.range taskResults.length)) :
    (generatorResults taskResults perm).Perm taskResults :=
  asCompleted_perm taskResults perm h

/-- Witness for C4 (amended) at the counterexample's input. -/
theorem c4_amended_witness :
    (generatorResults [some (0 : Nat), none] [1, 0]).Perm [some 0, none] :=
  c4_amended [some 0, none] [1, 0] (by decide)

/-- Claim C5 counterexample: attempt results by cycle `[none, some 1]`, with
attempt 1 completing first (completion order `[1, 0]`): the code's scan of
the completion-ordered results records `cycles_needed = 1`, whereas the
claim's cycle-index-order scan records `cycles_needed = 2`. -/
theorem c5_counterexample :
    scanLoop (asCompleted [1, 0] [none, some (1 : Nat)]) 0 = some (1, 1) ∧
    innerScanSpecC5 [none, some (1 : Nat)] = some (1, 2) ∧
    scanLoop (asCompleted [1, 0] [none, some (1 : Nat)]) 0 ≠
      innerScanSpecC5 [none, some (1 : Nat)] := by
  decide

/-- Claim C5 (amended): the Inner Scheduler scans the completed attempt
results in completion order: it returns the first non-failure artifact of
the completion-ordered list and records `cycles_needed` as that entry's
1-based position in completion order (not the attempt's cycle index); and
when every attempt failed, the final report raises `UnboundLocalError`
instead of returning the absence marker. -/
theorem c5_amended (resultsByCycle : List (Option α)) (perm : List Nat) :
    (∀ m k, scanLoop (asCompleted perm resultsByCycle) 0 = some (m, k) ↔
      ∃ j, j < (asCompleted perm resultsByCycle).length ∧ k = j + 1 ∧
        (asCompleted perm resultsByCycle)[j]? = some (some m) ∧
        ∀ j', j' < j → (asCompleted perm resultsByCycle)[j']? = some none) ∧
    (innerFinish (asCompleted perm resultsByCycle) = .error .unboundLocalError ↔
      ∀ r ∈ asCompleted perm resultsByCycle, r = none) := by
  constructor
  · intro m k
    rw [scanLoop_eq_some_iff]
    constructor
    · rintro ⟨j, hj, hk, hget, hprev⟩
      exact ⟨j, hj, by omega, hget, hprev⟩
    · rintro ⟨j, hj, hk, hget, hprev⟩
      exact ⟨j, hj, by omega, hget, hprev⟩
  · rw [← scanLoop_eq_none_iff (asCompleted perm resultsByCycle) 0]
    unfold innerFinish
    cases h : scanLoop (asCompleted perm resultsByCycle) 0 with
    | none => simp
    | some mk =>
      cases mk
      simp

/-- Claim C6: `setup_blocks` returns its blocks already ordered by
ascending `ncores` — each block's per-slot core count is at most that of
every later block (the subsequent `blocks.sort` in `generator` is a
no-op). -/
theorem c6_sorted (ncores num_molecules mincores : Nat)
    (hnc : 1 ≤ ncores) (hmc : 1 ≤ mincores) :
    ∃ bs, setup_blocks ncores num_molecules mincores = .ok bs ∧
      List.Pairwise (fun a b => a.ncores ≤ b.ncores) bs := by
  obtain ⟨bs, hok, -, -, hpair, -⟩ :=
    setup_blocksFuel_spec ncores num_molecules mincores num_molecules hnc hmc
      (le_refl _)
  exact ⟨bs, hok, hpair⟩

/-- Witness for C6 at `total_cores = 8`, `artifact_count = 3`,
`min_cores_per_slot = 4`. -/
theorem c6_witness :
    ∃ bs, setup_blocks 8 3 4 = .ok bs ∧
      List.Pairwise (fun a b => a.ncores ≤ b.ncores) bs :=
  c6_sorted 8 3 4 (by decide) (by decide)

/-- Claim C7: `setup_blocks` terminates and never fails for every
`total_cores ≥ 1` and `artifact_count ≥ 0`: the loop body consumes at
least one molecule per iteration (so any fuel at least `artifact_count`
yields the same successful result), and the divisor search always finds a
candidate (slot count 1 always qualifies) while molecules remain. -/
theorem c7_terminates (ncores num_molecules mincores fuel : Nat)
    (hnc : 1 ≤ ncores) (hmc : 1 ≤ mincores) (hfuel : num_molecules ≤ fuel) :
    ∃ bs, setup_blocksFuel ncores num_molecules mincores fuel = .ok bs ∧
      setup_blocks ncores num_molecules mincores = .ok bs := by
  obtain ⟨bs, hok, -, -, -, -⟩ :=
    setup_blocksFuel_spec ncores num_molecules mincores fuel hnc hmc hfuel
  refine ⟨bs, hok, ?_⟩
  rw [← setup_blocksFuel_eq_setup_blocks ncores num_molecules mincores fuel
    hnc hfuel]
  exact hok

/-- Witness for C7 at `total_cores = 8`, `artifact_count = 3`,
`min_cores_per_slot = 4`, fuel 100. -/
theorem c7_witness :
    ∃ bs, setup_blocksFuel 8 3 4 100 = .ok bs ∧ setup_blocks 8 3 4 = .ok bs :=
  c7_terminates 8 3 4 100 (by decide) (by decide) (by decide)

/-- Claim C8 counterexample: with verbosity 1 and two planned blocks the
scheduler writes the configuration: the parallel tasks observe a
configuration with verbosity 0, not the configuration passed in
(main.py lines 104-107). -/
theorem c8_counterexample :
    (generatorVerbosityPhase ⟨1, 1, 5, 4, false, false⟩ 2).2 ≠
      (⟨1, 1, 5, 4, false, false⟩ : GeneralConfig) := by
  decide

/-- Claim C8 (amended): the scheduler's only write to the configuration is
the verbosity toggle: when more than one block is planned and verbosity is
positive, the parallel phase observes verbosity `0`; every other field is
unchanged, and the restore step afterwards returns the configuration to
exactly its original value. -/
theorem c8_amended (cfg : GeneralConfig) (nblocks : Nat) :
    generatorVerbosityRestore (generatorVerbosityPhase cfg nblocks).1
      (generatorVerbosityPhase cfg nblocks).2 = cfg ∧
    (generatorVerbosityPhase cfg nblocks).2.verbosity =
      (if 1 < nblocks ∧ 0 < cfg.verbosity then 0 else cfg.verbosity) ∧
    (generatorVerbosityPhase cfg nblocks).2.num_molecules = cfg.num_molecules ∧
    (generatorVerbosityPhase cfg nblocks).2.max_cycles = cfg.max_cycles ∧
    (generatorVerbosityPhase cfg nblocks).2.parallel = cfg.parallel ∧
    (generatorVerbosityPhase cfg nblocks).2.postprocess = cfg.postprocess ∧
    (generatorVerbosityPhase cfg nblocks).2.write_xyz = cfg.write_xyz := by
  obtain ⟨v, nm, mc, pl, pp, wx⟩ := cfg
  unfold generatorVerbosityPhase generatorVerbosityRestore
  by_cases h : 1 < nblocks ∧ 0 < v
  · simp [h]
  · simp [h]

/-- Claim C9 counterexample: two attempts for one artifact, both with a
molecule in hand and no debug flags, sharing one stop event; in the
interleaving `[0, 1, 0, 1]` both attempts check the event before either
sets it, and both transition to `DONE` — more than one attempt returns an
artifact. -/
theorem c9_counterexample :
    ¬ (doneCount (runClaim false false [0, 1, 0, 1] false
        [AttemptPhase.start (0 : Nat), AttemptPhase.start 1]).2 ≤ 1) := by
  decide

/-- Claim C9 (amended): with no debug flag, at most one attempt transitions
to `DONE` provided each attempt's check of the stop event and its
subsequent set-and-return execute atomically (adjacent in the
interleaving); the code's check and set are separate operations, so
without that atomicity two attempts can both pass the check and both
return artifacts. -/
theorem c9_amended (order : List Nat) (ms : List α) :
    doneCount (runClaim false false (atomicSched order) false
      (ms.map AttemptPhase.start)).2 ≤ 1 := by
  have hc : doneCount (ms.map AttemptPhase.start) = 0 := by
    unfold doneCount
    rw [List.countP_map]
    apply List.countP_eq_zero.mpr
    intro a _
    simp [Function.comp, isDone]
  apply runClaim_atomic_le_one
  · intro ph hph
    obtain ⟨m, -, rfl⟩ := List.mem_map.mp hph
    rfl
  · omega
  · intro h
    rw [hc] at h
    exact absurd h (by omega)

/-- Claim C10: for every `total_cores ≥ 1` and `artifact_count ≥ 1` every
block emitted by `setup_blocks` is non-degenerate: its molecule count and
per-slot core count are both at least 1, and whenever
`total_cores ≥ min_cores_per_slot` the per-slot core count is at least
`min_cores_per_slot`. -/
theorem c10_nondegenerate (ncores num_molecules mincores : Nat)
    (hnc : 1 ≤ ncores) (hnm : 1 ≤ num_molecules) (hmc : 1 ≤ mincores) :
    ∃ bs, setup_blocks ncores num_molecules mincores = .ok bs ∧
      ∀ b ∈ bs, 1 ≤ b.num_molecules ∧ 1 ≤ b.ncores ∧
        (mincores ≤ ncores → mincores ≤ b.ncores) := by
  obtain ⟨bs, hok, -, hblocks, -, -⟩ :=
    setup_blocksFuel_spec ncores num_molecules mincores num_molecules hnc hmc
      (le_refl _)
  exact ⟨bs, hok, fun b hb =>
    ⟨(hblocks b hb).1, (hblocks b hb).2.1, (hblocks b hb).2.2.2⟩⟩

/-- Witness for C10 at `total_cores = 8`, `artifact_count = 3`,
`min_cores_per_slot = 4`. -/
theorem c10_witness :
    ∃ bs, setup_blocks 8 3 4 = .ok bs ∧
      ∀ b ∈ bs, 1 ≤ b.num_molecules ∧ 1 ≤ b.ncores ∧ (4 ≤ 8 → 4 ≤ b.ncores) :=
  c10_nondegenerate 8 3 4 (by decide) (by decide) (by decide)
